import Mathlib

/-!
Verification of the fouskoti chart-resolution and expansion engine.

This file gives a shallow embedding of the repository-loading and
HelmRelease-expansion code (pkg/repository: expand.go, git.go, helm.go,
oci.go) and proves properties of it.  Pure Go functions become Lean
functions; the stateful OCI loading path becomes explicit state passing
over a small state record; fallible code returns Except.  Logging and
credential lookup side effects that do not influence the verified control
flow are elided.  File system paths are modelled as lists of path
components (path.Join concatenates components).
-/

namespace Fouskoti

/-! ### Loader factory (expand.go: getRepoFactory, getRepoFactoryByURL) -/

/-- Backend loader kinds produced by the factory functions
(newGitRepositoryLoader, newHelmRepositoryLoader, newOciRepositoryLoader). -/
inductive LoaderKind where
  | git
  | helm
  | oci
deriving DecidableEq

/-- Outcome of repoNode.GetFieldValue("spec.type") in getRepoFactory:
the field can be absent (yaml.NoFieldError), the lookup can fail with
another error, the value can be a non-string, or a string. -/
inductive FieldLookup where
  | missing
  | failed
  | nonString
  | strVal (s : String)
deriving DecidableEq

/-- The slice of a repository resource node read by getRepoFactory. -/
structure RepoNode where
  kind : String
  specType : FieldLookup
deriving DecidableEq

/-- Embedding of getRepoFactory (expand.go).  Dispatch on the node kind;
for HelmRepository the spec.type field selects the OCI backend when it is
the string "oci". -/
def getRepoFactory (node : RepoNode) : Except String LoaderKind :=
  if node.kind = "HelmRepository" then
    match node.specType with
    | .missing => .ok .helm
    | .failed => .error "error retrieving spec.type"
    | .nonString => .error "invalid value for spec.type"
    | .strVal s => if s ≠ "oci" then .ok .helm else .ok .oci
  else if node.kind = "GitRepository" then .ok .git
  else if node.kind = "OCIRepository" then .ok .oci
  else .error "unknown kind for repository"

/-- Embedding of getRepoFactoryByURL (expand.go).  The URL has already
been parsed; scheme is the URL scheme and username is
parsedURL.User.Username(), which is the empty string when the URL has no
userinfo. -/
def getRepoFactoryByURL (scheme username : String) : Except String LoaderKind :=
  if scheme = "https" ∨ scheme = "http" then
    (if username = "git" then .ok .git else .ok .helm)
  else if scheme = "ssh" then .ok .git
  else if scheme = "oci" then .ok .oci
  else .error "unknown type for repository URL"

/-! ### OCI registry security flag (oci.go: isRepoInsecure) -/

/-- The slice of a HelmRepository resource read by isRepoInsecure. -/
structure HelmRepoSpec where
  insecure : Bool
deriving DecidableEq

/-- Embedding of isRepoInsecure (oci.go).  When a repository resource is
given its spec.insecure flag decides.  Otherwise the Go code switches on
the URL scheme; its case for "https" has an empty body, and Go switch
cases do not fall through, so the "https" arm leaves the switch and
reaches the final return true; only "oci" returns false. -/
def isRepoInsecure (repo : Option HelmRepoSpec) (scheme : String) : Bool :=
  match repo with
  | some r => r.insecure
  | none =>
    if scheme = "https" then true
    else if scheme = "oci" then false
    else true

/-! ### Resource nodes and the expansion pipeline (expand.go) -/

/-- The slice of a parsed YAML resource node read by the expansion
pipeline: the four metadata fields used for sorting plus the remaining
document content (which the sort comparator never reads).  The namespace
field is called nspace because namespace is a Lean keyword. -/
structure Node where
  kind : String
  apiVersion : String
  nspace : String
  name : String
  body : String
deriving DecidableEq

/-- Embedding of releaseRepoRenderer.Filter (expand.go).  The loop body
(releaseRepoRenderer.filterStep) performs rendering and is abstracted as
the step argument, returning the grown node set and the newly produced
nodes.  The loop runs maxExpansions times at most, breaking as soon as a
step produces no new nodes; the second component counts how many times
the step ran. -/
def runFilterAux
    (step : List Node → List Node → Except String (List Node × List Node)) :
    Nat → List Node → List Node → Except String (List Node) × Nat
  | 0, nodes, _ => (.ok nodes, 0)
  | n + 1, nodes, newNodes =>
    match step nodes newNodes with
    | .error e => (.error e, 1)
    | .ok (nodes2, new2) =>
      if new2 = [] then (.ok nodes2, 1)
      else
        let r := runFilterAux step n nodes2 new2
        (r.1, r.2 + 1)

/-- Result of releaseRepoRenderer.Filter: the loop starts with the full
input node set as both the accumulated set and the set to scan
(newNodes := nodes in the source). -/
def releaseRepoFilter
    (step : List Node → List Node → Except String (List Node × List Node))
    (maxExpansions : Nat) (nodes : List Node) : Except String (List Node) :=
  (runFilterAux step maxExpansions nodes nodes).1

/-- Number of rounds (filterStep invocations) the Filter loop performs. -/
def releaseRepoFilterRounds
    (step : List Node → List Node → Except String (List Node × List Node))
    (maxExpansions : Nat) (nodes : List Node) : Nat :=
  (runFilterAux step maxExpansions nodes nodes).2

/-! ### Git references (git.go) -/

/-- Embedding of sourcev1.GitRepositoryRef: the five reference slots of a
GitRepository resource; unset slots are empty strings. -/
structure GitRepositoryRef where
  branch : String
  tag : String
  semver : String
  name : String
  commit : String
deriving DecidableEq

/-- The all-empty reference used below for the master default. -/
def masterRef : GitRepositoryRef :=
  { branch := "master", tag := "", semver := "", name := "", commit := "" }

/-- Embedding of normalizeGitReference (git.go): a reference with all five
slots empty (or an absent reference) becomes branch master. -/
def normalizeGitReference (original : Option GitRepositoryRef) : GitRepositoryRef :=
  match original with
  | some ref =>
    if ref.branch ≠ "" ∨ ref.tag ≠ "" ∨ ref.semver ≠ "" ∨
        ref.name ≠ "" ∨ ref.commit ≠ "" then
      ref
    else masterRef
  | none => masterRef

/-- Embedding of the gitRefString value built in cloneRepo (git.go):
the five reference slots joined with '#'. -/
def gitRefString (ref : GitRepositoryRef) : String :=
  ref.branch ++ "#" ++ ref.tag ++ "#" ++ ref.semver ++ "#" ++ ref.name ++ "#" ++ ref.commit

/-- Embedding of the chartKey built in gitRepoChartLoader.loadRepositoryChart
(git.go): URL, chart name and the five reference slots joined with '#'. -/
def gitChartKey (repoURL chartName : String) (ref : GitRepositoryRef) : String :=
  repoURL ++ "#" ++ chartName ++ "#" ++ gitRefString ref

/-- Embedding of repository.CheckoutStrategy as filled by cloneRepo
(git.go). -/
structure CheckoutStrategy where
  branch : String
  tag : String
  semver : String
  refName : String
  commit : String
deriving DecidableEq

/-- The checkout strategy cloneRepo passes to the Git client, copied from
the normalized reference. -/
def cloneCheckoutStrategy (ref : GitRepositoryRef) : CheckoutStrategy :=
  { branch := ref.branch, tag := ref.tag, semver := ref.semver,
    refName := ref.name, commit := ref.commit }

/-! ### Disk cache paths (expand.go: getCachePathForRepo; git.go: cloneRepo) -/

/-- Embedding of strings.ReplaceAll(s, "/", "#"). -/
def replaceSlashes (s : String) : String :=
  String.mk (s.data.map fun c => if c = '/' then '#' else c)

/-- Embedding of strings.TrimSuffix(s, "/"): remove one trailing slash if
present. -/
def trimSuffixSlash (s : String) : String :=
  if s.data.getLast? = some '/' then String.mk s.data.dropLast else s

/-- The per-repository cache directory name used by getCachePathForRepo:
the URL with a trailing slash removed and slashes replaced by '#'. -/
def repoURLCacheDir (repoURL : String) : String :=
  replaceSlashes (trimSuffixSlash repoURL)

/-- Embedding of getCachePathForRepo (expand.go).  Paths are modelled as
component lists; the ephemeral flag inserts the "ephemeral" component
directly under the cache root. -/
def getCachePathForRepo (cacheRoot repoURL : String) (ephemeral : Bool) : List String :=
  [cacheRoot] ++ (if ephemeral then ["ephemeral"] else []) ++ [repoURLCacheDir repoURL]

/-- Modelled from the spec: the choice of the ephemeral flag for a Git
checkout.  The current cloneRepo body is not in the sources (the included
version predates the ephemeral split: it calls getCachePathForRepo
without the ephemeral argument).  Per the spec, pinned identities
(explicit commit, tag, semver) live under the persistent subtree and
floating identities (unset reference, branch name) under the ephemeral
subtree; references the spec does not classify (named refs) are treated
as floating here. -/
def isFloatingGitRef (ref : GitRepositoryRef) : Bool :=
  ref.commit = "" ∧ ref.tag = "" ∧ ref.semver = ""

/-- The cache path cloneRepo (git.go) uses for a checkout: the repository
cache directory (ephemeral for floating references, per the spec)
extended with the joined reference slots. -/
def gitCloneCachePath (cacheRoot repoURL : String)
    (reference : Option GitRepositoryRef) : List String :=
  let ref := normalizeGitReference reference
  getCachePathForRepo cacheRoot repoURL (isFloatingGitRef ref) ++ [gitRefString ref]

/-- Embedding of the deferred cleanup in HelmReleaseExpander.ExpandHelmReleases
(expand.go): os.RemoveAll on the ephemeral subdirectory of the cache root
removes every path below it, on success and on failure alike. -/
def cleanupEphemeral (cacheRoot : String) (paths : List (List String)) :
    List (List String) :=
  paths.filter fun p => ¬ [cacheRoot, "ephemeral"].isPrefixOf p

/-! ### The OCI chart loader (oci.go: ociRepoChartLoader.loadRepositoryChart)

The loader is embedded as a state machine over the in-memory chart cache,
the disk cache and two counters for the network operations the claims
speak about (registry tag listings and chart content downloads).  Charts
are opaque blobs, modelled as strings.  The registry is modelled by the
tag list and chart content it would serve; credential lookup, registry
login and dependency loading are elided (they do not touch the caches or
the counted operations).  Semver handling (fluxcd version.ParseVersion
and getLatestMatchingVersion) is abstracted into the parameters pv
(does the version spec parse as a concrete version) and sel (select the
latest tag matching the spec, none when no tag matches). -/

/-- State threaded through OCI chart loads: the optional in-memory chart
cache (nil map disables it), the disk cache (path to chart content, none
marking a directory helmloader.LoadDir fails on), and counters of Tags
and Get calls on the registry client. -/
structure OciState where
  memCache : Option (List (String × String))
  disk : List (String × Option String)
  tagsCount : Nat
  getCount : Nat
deriving DecidableEq

/-- Embedding of ociRepoChartLoader.getChartVersion (oci.go): a spec that
already parses as a version is used verbatim with no network use;
otherwise the registry tags are listed (counted by the second component),
an empty tag list is an error, and otherwise the latest matching tag is
selected. -/
def ociResolveVersion (pv : String → Bool)
    (sel : List String → String → Option String)
    (tags : List String) (spec : String) : Except String String × Nat :=
  if pv spec then (.ok spec, 0)
  else if tags = [] then (.error "unable to locate any tags", 1)
  else
    match sel tags spec with
    | some v => (.ok v, 1)
    | none => (.error "unable to find version matching spec", 1)

/-- Embedding of getChartPath (oci.go): repoPath/name-version, as one
path string. -/
def getChartPath (repoPath chartName chartVersion : String) : String :=
  repoPath ++ "/" ++ chartName ++ "-" ++ chartVersion

/-- The per-repository cache path the OCI loader derives (oci.go calls
getCachePathForRepo with ephemeral false), flattened to a string. -/
def ociRepoPath (cacheRoot repoURL : String) : String :=
  cacheRoot ++ "/" ++ repoURLCacheDir repoURL

/-- Embedding of the chartKey built in loadRepositoryChart (oci.go):
URL, chart name and resolved version joined with '#'. -/
def ociChartKey (repoURL chartName chartVersion : String) : String :=
  repoURL ++ "#" ++ chartName ++ "#" ++ chartVersion

/-- The tail of loadRepositoryChart (oci.go) after version resolution and
the in-memory cache check.  If the chart path exists on disk the chart is
loaded from it: on success it is returned directly (without populating
the memory cache); on failure the directory is removed (os.RemoveAll) and
the function returns the nil chart together with a nil error, modelled as
ok none.  Otherwise the chart is downloaded (counted), saved to the disk
cache, and recorded in the memory cache when that is enabled. -/
def ociLoadRest (content chartPath chartKey : String) (st : OciState) :
    Except String (Option String) × OciState :=
  match st.disk.lookup chartPath with
  | some (some c) => (.ok (some c), st)
  | some none =>
    (.ok none, { st with disk := st.disk.filter fun p => p.1 ≠ chartPath })
  | none =>
    let st1 : OciState := { st with getCount := st.getCount + 1 }
    let st2 : OciState := { st1 with disk := (chartPath, some content) :: st1.disk }
    let st3 : OciState :=
      match st2.memCache with
      | some cache => { st2 with memCache := some ((chartKey, content) :: cache) }
      | none => st2
    (.ok (some content), st3)

/-- Embedding of ociRepoChartLoader.loadRepositoryChart (oci.go) for an
already-normalized repository URL: resolve the chart version (listing
registry tags unless the spec is already concrete), then consult the
in-memory cache, then the disk cache, then download. -/
def ociLoadChart (pv : String → Bool)
    (sel : List String → String → Option String)
    (tags : List String) (content : String)
    (cacheRoot repoURL chartName spec : String) (st : OciState) :
    Except String (Option String) × OciState :=
  let rv := ociResolveVersion pv sel tags spec
  let st1 : OciState := { st with tagsCount := st.tagsCount + rv.2 }
  match rv.1 with
  | .error e => (.error e, st1)
  | .ok ver =>
    let chartPath := getChartPath (ociRepoPath cacheRoot repoURL) chartName ver
    let chartKey := ociChartKey repoURL chartName ver
    match st1.memCache with
    | some cache =>
      match cache.lookup chartKey with
      | some c => (.ok (some c), st1)
      | none => ociLoadRest content chartPath chartKey st1
    | none => ociLoadRest content chartPath chartKey st1

/-! ### Git clone URL rewriting (git.go: cloneRepo) -/

/-- The slice of a parsed Git URL cloneRepo reads and rewrites.  The host
field is the hostname (net/url Hostname), with the port held separately:
url.URL.Host is the hostname followed by the port when one is present. -/
structure GitURL where
  scheme : String
  user : Option String
  host : String
  port : Option String
  path : String
deriving DecidableEq

/-- Value lookup in a Go map[string]string: a missing key yields the
empty string. -/
def credValue (m : List (String × String)) (k : String) : String :=
  (m.lookup k).getD ""

/-- Embedding of the URL rewrite in cloneRepo (git.go): when credentials
were resolved for the repository, the URL scheme is ssh, the credentials
have a non-empty password and an empty identity, the clone URL becomes
https with the host reduced to the hostname (dropping the port) and the
userinfo removed; otherwise the URL is used unchanged. -/
def cloneURL (u : GitURL) (repoCreds : Option (List (String × String))) : GitURL :=
  match repoCreds with
  | none => u
  | some m =>
    if u.scheme = "ssh" ∧ credValue m "password" ≠ "" ∧ credValue m "identity" = "" then
      { scheme := "https", user := none, host := u.host, port := none, path := u.path }
    else u

/-! ### Repository URL normalization (helm.go: normalizeURL)

The source parses the URL with net/url, trims trailing slashes from the
path (strings.TrimRight(path, "/")), appends a single slash for non-OCI
schemes, and serializes the URL again.  The embedding works on character
lists and models the hierarchical scheme://host/path shape net/url gives
the chart repository URLs this program handles; query, fragment, userinfo
and opaque forms are not modelled. -/

/-- Split a URL string at the first "://" occurrence: the characters
before it and the characters after it.  none when no "://" occurs. -/
def splitScheme : List Char → Option (List Char × List Char)
  | [] => none
  | c :: rest =>
    if c = ':' ∧ rest.take 2 = ['/', '/'] then some ([], rest.drop 2)
    else
      match splitScheme rest with
      | some (pre, post) => some (c :: pre, post)
      | none => none

/-- The parsed slice of a hierarchical URL: scheme, host (authority up to
the first slash) and path (the rest, starting with a slash or empty). -/
structure URLParts where
  scheme : List Char
  host : List Char
  path : List Char
deriving DecidableEq

/-- Model of net/url parsing for hierarchical URLs: require a non-empty
scheme containing neither slash nor colon before "://", then split the
remainder into host and path at the first slash. -/
def parseURL (s : List Char) : Option URLParts :=
  match splitScheme s with
  | none => none
  | some (scheme, rest) =>
    if scheme = [] ∨ '/' ∈ scheme ∨ ':' ∈ scheme then none
    else some ⟨scheme, rest.takeWhile (fun c => c ≠ '/'), rest.dropWhile (fun c => c ≠ '/')⟩

/-- Model of url.URL.String for the parsed slice. -/
def urlString (u : URLParts) : List Char :=
  u.scheme ++ ':' :: '/' :: '/' :: (u.host ++ u.path)

/-- Embedding of strings.TrimRight(s, "/"): remove every trailing
slash. -/
def trimRightSlashes : List Char → List Char
  | [] => []
  | c :: rest =>
    match trimRightSlashes rest with
    | [] => if c = '/' then [] else [c]
    | r => c :: r

/-- Embedding of normalizeURL (helm.go): the empty string is returned
unchanged with no error; otherwise the URL is parsed, trailing slashes
are removed from the path, for non-OCI schemes a single trailing slash is
appended, and the URL is serialized again. -/
def normalizeURL (s : List Char) : Option (List Char) :=
  if s = [] then some []
  else
    match parseURL s with
    | none => none
    | some u =>
      if u.scheme = "oci".data then
        some (urlString ⟨u.scheme, u.host, trimRightSlashes u.path⟩)
      else
        some (urlString ⟨u.scheme, u.host, trimRightSlashes u.path ++ ['/']⟩)

/-! ### Sorting of newly produced nodes (expand.go: filterStep)

filterStep sorts the freshly rendered nodes with slices.SortStableFunc
and a comparator chaining the kind, API version, namespace and name
fields, then appends them after the accumulated node set.  Stable sorting
is modelled by insertion sort, which Mathlib defines exactly as a stable
sort. -/

/-- One Go string comparison step of the filterStep comparator:
-1 when a sorts before b, 1 when after, 0 when the fields are equal. -/
def cmpStr (a b : String) : Int :=
  if a < b then -1 else if b < a then 1 else 0

/-- Chaining of comparator steps: a non-zero outcome decides, a zero
outcome defers to the next field. -/
def chainCmp (c r : Int) : Int :=
  if c = 0 then r else c

/-- Embedding of the comparator passed to slices.SortStableFunc in
filterStep (expand.go): kind, then API version, then namespace, then
name. -/
def cmpNodes (a b : Node) : Int :=
  chainCmp (cmpStr a.kind b.kind)
    (chainCmp (cmpStr a.apiVersion b.apiVersion)
      (chainCmp (cmpStr a.nspace b.nspace) (cmpStr a.name b.name)))

/-- The sort relation induced by the comparator. -/
def nodeLE (a b : Node) : Prop := cmpNodes a b ≤ 0

instance : DecidableRel nodeLE :=
  fun a b => inferInstanceAs (Decidable (cmpNodes a b ≤ 0))

/-- The four fields the comparator reads. -/
def nodeKey (a : Node) : String × String × String × String :=
  (a.kind, a.apiVersion, a.nspace, a.name)

/-- The comparator key under the lexicographic order, used to relate the
integer comparator to a linear order. -/
def nodeLexKey (a : Node) : Lex (String × Lex (String × Lex (String × String))) :=
  toLex (a.kind, toLex (a.apiVersion, toLex (a.nspace, a.name)))

/-- Model of slices.SortStableFunc with the filterStep comparator:
insertion sort is stable (equal elements keep their input order). -/
def sortNewNodes (l : List Node) : List Node :=
  List.insertionSort nodeLE l

/-- The combination step of filterStep (expand.go): the newly produced
nodes are sorted and appended after the accumulated node set; the pair of
the grown set and the sorted new nodes is returned. -/
def filterStepCombine (allNodes newNodes : List Node) : List Node × List Node :=
  (allNodes ++ sortNewNodes newNodes, sortNewNodes newNodes)

/-! ### Concrete fixtures used by witnesses and counterexamples -/

/-- A step that produces no new nodes: the loop must stop after one
round. -/
def stepStop : List Node → List Node → Except String (List Node × List Node) :=
  fun a b => .ok (a ++ b, [])

/-- A node used by the growing step fixture. -/
def growNode : Node := ⟨"ConfigMap", "v1", "ns", "grow", ""⟩

/-- A step that always produces one new node: the loop must run until the
round limit. -/
def stepGrow : List Node → List Node → Except String (List Node × List Node) :=
  fun a _ => .ok (a ++ [growNode], [growNode])

/-- Version-spec parser fixture: only "1.0.0" is a concrete version. -/
def pvFix : String → Bool := fun v => v = "1.0.0"

/-- Tag-selection fixture that never matches. -/
def selFix : List String → String → Option String := fun _ _ => none

/-- The disk cache path of the fixture chart. -/
def corruptPath : String :=
  getChartPath (ociRepoPath "cache" "oci://reg/repo") "chart" "1.0.0"

/-- A state whose disk cache holds a corrupt entry for the fixture chart
and whose memory cache is enabled and empty. -/
def corruptState : OciState := ⟨some [], [(corruptPath, none)], 0, 0⟩

/-- Two nodes equal on all four comparator fields but with different
document content. -/
def tieNodeA : Node := ⟨"ConfigMap", "v1", "ns", "x", "data-a"⟩

/-- The second node of the tied pair. -/
def tieNodeB : Node := ⟨"ConfigMap", "v1", "ns", "x", "data-b"⟩

/-- Two nodes with distinct comparator keys. -/
def keyNodeA : Node := ⟨"ConfigMap", "v1", "ns", "a", "data-a"⟩

/-- The second node of the distinct-key pair. -/
def keyNodeB : Node := ⟨"Service", "v1", "ns", "b", "data-b"⟩

/-- A pinned Git reference fixture (commit). -/
def pinnedRefFix : GitRepositoryRef :=
  ⟨"", "", "", "", "437909a800db720437b972dbf7911b5ffbc90be4"⟩

/-! ## Theorems -/

/-- C2: for a bare URL (no repository resource node) the code marks the
registry insecure for the https scheme, exactly like for unknown schemes,
because the "https" switch case has an empty body; only the oci scheme is
treated as secure.  This contradicts the claim (and the spec), which say
https and oci are both secure; the failing input is a bare https URL. -/
theorem isRepoInsecure_https_divergence :
    isRepoInsecure none "https" = true
  ∧ isRepoInsecure none "oci" = false
  ∧ isRepoInsecure none "ftp" = true := by
  decide

/-- C8: loader selection.  For a repository resource node the kind field
selects the backend (GitRepository selects Git, OCIRepository selects
OCI, HelmRepository selects Helm unless spec.type is the string "oci", in
which case OCI); for a bare URL, scheme oci selects OCI, ssh selects Git,
http and https with userinfo username git select Git and otherwise Helm;
any other kind or scheme is an error. -/
theorem loader_selection (node : RepoNode) (scheme username : String) :
    (node.kind = "GitRepository" → getRepoFactory node = .ok .git)
  ∧ (node.kind = "OCIRepository" → getRepoFactory node = .ok .oci)
  ∧ (node.kind = "HelmRepository" → node.specType = .missing →
      getRepoFactory node = .ok .helm)
  ∧ (∀ s, node.kind = "HelmRepository" → node.specType = .strVal s → s ≠ "oci" →
      getRepoFactory node = .ok .helm)
  ∧ (node.kind = "HelmRepository" → node.specType = .strVal "oci" →
      getRepoFactory node = .ok .oci)
  ∧ (node.kind ≠ "GitRepository" → node.kind ≠ "OCIRepository" →
      node.kind ≠ "HelmRepository" → ∃ e, getRepoFactory node = .error e)
  ∧ (scheme = "oci" → getRepoFactoryByURL scheme username = .ok .oci)
  ∧ (scheme = "ssh" → getRepoFactoryByURL scheme username = .ok .git)
  ∧ ((scheme = "http" ∨ scheme = "https") → username = "git" →
      getRepoFactoryByURL scheme username = .ok .git)
  ∧ ((scheme = "http" ∨ scheme = "https") → username ≠ "git" →
      getRepoFactoryByURL scheme username = .ok .helm)
  ∧ (scheme ≠ "http" → scheme ≠ "https" → scheme ≠ "ssh" → scheme ≠ "oci" →
      ∃ e, getRepoFactoryByURL scheme username = .error e) := by
  refine ⟨?_, ?_, ?_, ?_, ?_, ?_, ?_, ?_, ?_, ?_, ?_⟩
  · intro h; simp [getRepoFactory, h]
  · intro h; simp [getRepoFactory, h]
  · intro h htype; simp [getRepoFactory, h, htype]
  · intro s h htype hs; simp [getRepoFactory, h, htype, hs]
  · intro h htype; simp [getRepoFactory, h, htype]
  · intro h1 h2 h3
    exact ⟨"unknown kind for repository", by simp [getRepoFactory, h1, h2, h3]⟩
  · intro h; simp [getRepoFactoryByURL, h]
  · intro h; simp [getRepoFactoryByURL, h]
  · intro h hu; rcases h with h | h <;> simp [getRepoFactoryByURL, h, hu]
  · intro h hu; rcases h with h | h <;> simp [getRepoFactoryByURL, h, hu]
  · intro h1 h2 h3 h4
    exact ⟨"unknown type for repository URL",
      by simp [getRepoFactoryByURL, h1, h2, h3, h4]⟩

/-- Witness for loader_selection: each selection rule evaluated at a
concrete repository node or URL. -/
theorem loader_selection_witness :
    getRepoFactory ⟨"GitRepository", .missing⟩ = .ok .git
  ∧ getRepoFactory ⟨"OCIRepository", .missing⟩ = .ok .oci
  ∧ getRepoFactory ⟨"HelmRepository", .missing⟩ = .ok .helm
  ∧ getRepoFactory ⟨"HelmRepository", .strVal "default"⟩ = .ok .helm
  ∧ getRepoFactory ⟨"HelmRepository", .strVal "oci"⟩ = .ok .oci
  ∧ (∃ e, getRepoFactory ⟨"Kustomization", .missing⟩ = .error e)
  ∧ getRepoFactoryByURL "oci" "" = .ok .oci
  ∧ getRepoFactoryByURL "ssh" "" = .ok .git
  ∧ getRepoFactoryByURL "https" "git" = .ok .git
  ∧ getRepoFactoryByURL "http" "" = .ok .helm
  ∧ (∃ e, getRepoFactoryByURL "ftp" "" = .error e) := by
  refine ⟨?_, ?_, ?_, ?_, ?_, ?_, ?_, ?_, ?_, ?_, ?_⟩
  · exact (loader_selection ⟨"GitRepository", .missing⟩ "" "").1 rfl
  · exact (loader_selection ⟨"OCIRepository", .missing⟩ "" "").2.1 rfl
  · exact (loader_selection ⟨"HelmRepository", .missing⟩ "" "").2.2.1 rfl rfl
  · exact (loader_selection ⟨"HelmRepository", .strVal "default"⟩ "" "").2.2.2.1
      "default" rfl rfl (by decide)
  · exact (loader_selection ⟨"HelmRepository", .strVal "oci"⟩ "" "").2.2.2.2.1 rfl rfl
  · exact (loader_selection ⟨"Kustomization", .missing⟩ "" "").2.2.2.2.2.1
      (by decide) (by decide) (by decide)
  · exact (loader_selection ⟨"", .missing⟩ "oci" "").2.2.2.2.2.2.1 rfl
  · exact (loader_selection ⟨"", .missing⟩ "ssh" "").2.2.2.2.2.2.2.1 rfl
  · exact (loader_selection ⟨"", .missing⟩ "https" "git").2.2.2.2.2.2.2.2.1
      (Or.inr rfl) rfl
  · exact (loader_selection ⟨"", .missing⟩ "http" "").2.2.2.2.2.2.2.2.2.1
      (Or.inl rfl) (by decide)
  · exact (loader_selection ⟨"", .missing⟩ "ftp" "").2.2.2.2.2.2.2.2.2.2
      (by decide) (by decide) (by decide) (by decide)

/-- C7: a GitRepository whose reference specifies none of branch, tag,
semver, name or commit (whether the reference is absent or present with
all slots empty) behaves identically to an explicit branch master
reference: the normalized reference, the derived cache key and cache
path, and the clone checkout strategy coincide. -/
theorem unset_git_ref_equals_master (repoURL chartName cacheRoot : String) :
    normalizeGitReference none = normalizeGitReference (some masterRef)
  ∧ normalizeGitReference (some ⟨"", "", "", "", ""⟩) = normalizeGitReference (some masterRef)
  ∧ gitChartKey repoURL chartName (normalizeGitReference none)
      = gitChartKey repoURL chartName (normalizeGitReference (some masterRef))
  ∧ gitCloneCachePath cacheRoot repoURL none
      = gitCloneCachePath cacheRoot repoURL (some masterRef)
  ∧ cloneCheckoutStrategy (normalizeGitReference none)
      = cloneCheckoutStrategy (normalizeGitReference (some masterRef)) := by
  have h : normalizeGitReference (some masterRef) = masterRef := by decide
  have h0 : normalizeGitReference none = masterRef := rfl
  refine ⟨?_, ?_, ?_, ?_, ?_⟩
  · rw [h, h0]
  · decide
  · rw [h, h0]
  · unfold gitCloneCachePath; rw [h, h0]
  · rw [h, h0]

/-- Helper: the Filter loop never runs more rounds than its fuel. -/
theorem runFilterAux_rounds_le
    (step : List Node → List Node → Except String (List Node × List Node)) :
    ∀ (n : Nat) (a b : List Node), (runFilterAux step n a b).2 ≤ n := by
  intro n
  induction n with
  | zero => intro a b; simp [runFilterAux]
  | succ n ih =>
    intro a b
    simp only [runFilterAux]
    cases h : step a b with
    | error e => simp
    | ok p =>
      by_cases hn : p.2 = []
      · simp [hn]
      · have := ih p.1 p.2
        simp [hn]
        omega

/-- Helper: when every step succeeds and produces new nodes, the Filter
loop consumes all its fuel and still returns the accumulated nodes
without an error. -/
theorem runFilterAux_all_grow
    (step : List Node → List Node → Except String (List Node × List Node))
    (hstep : ∀ a b, ∃ out, step a b = .ok out ∧ out.2 ≠ []) :
    ∀ (n : Nat) (a b : List Node),
      ∃ res, runFilterAux step n a b = (.ok res, n) := by
  intro n
  induction n with
  | zero => intro a b; exact ⟨a, rfl⟩
  | succ n ih =>
    intro a b
    obtain ⟨out, hout, hne⟩ := hstep a b
    obtain ⟨res, hres⟩ := ih out.1 out.2
    refine ⟨res, ?_⟩
    simp only [runFilterAux, hout]
    simp [hne, hres]

/-- C5: the expansion pipeline Filter runs at most the caller-supplied
round limit of rounds, stops as soon as one round adds zero new nodes
(returning the accumulated set), and when every round keeps producing new
nodes it exhausts the round limit and returns the accumulated node set
without reporting an error (silent truncation). -/
theorem filter_round_limit
    (step : List Node → List Node → Except String (List Node × List Node))
    (n : Nat) (nodes : List Node) :
    releaseRepoFilterRounds step n nodes ≤ n
  ∧ (∀ nodes2, 1 ≤ n → step nodes nodes = .ok (nodes2, []) →
      releaseRepoFilter step n nodes = .ok nodes2
        ∧ releaseRepoFilterRounds step n nodes = 1)
  ∧ ((∀ a b, ∃ out, step a b = .ok out ∧ out.2 ≠ []) →
      (∃ out, releaseRepoFilter step n nodes = .ok out)
        ∧ releaseRepoFilterRounds step n nodes = n) := by
  refine ⟨runFilterAux_rounds_le step n nodes nodes, ?_, ?_⟩
  · intro nodes2 hn hstep
    obtain ⟨m, rfl⟩ : ∃ m, n = m + 1 := ⟨n - 1, by omega⟩
    unfold releaseRepoFilter releaseRepoFilterRounds
    simp [runFilterAux, hstep]
  · intro hstep
    obtain ⟨res, hres⟩ := runFilterAux_all_grow step hstep n nodes nodes
    unfold releaseRepoFilter releaseRepoFilterRounds
    rw [hres]
    exact ⟨⟨res, rfl⟩, rfl⟩

/-- Witness for filter_round_limit: with a step producing no new nodes
the loop stops after one round; with a step that always produces a new
node the loop runs exactly to the round limit and returns ok. -/
theorem filter_round_limit_witness :
    (releaseRepoFilter stepStop 1 [] = .ok []
      ∧ releaseRepoFilterRounds stepStop 1 [] = 1)
  ∧ ((∃ out, releaseRepoFilter stepGrow 3 [] = .ok out)
      ∧ releaseRepoFilterRounds stepGrow 3 [] = 3) := by
  constructor
  · exact (filter_round_limit stepStop 1 []).2.1 [] (by decide) rfl
  · exact (filter_round_limit stepGrow 3 []).2.2
      (fun a b => ⟨(a ++ [growNode], [growNode]), rfl, by simp⟩)

/-- C9 counterexample: the claim states the ssh-to-https rewrite happens
when the resolved credentials contain a username and password pair (and
the URL is unchanged in every other case), but the code never consults
the username: credentials holding only a password (empty username) still
trigger the rewrite. -/
theorem cloneURL_username_counterexample :
    credValue [("password", "token")] "username" = ""
  ∧ cloneURL ⟨"ssh", some "git", "localhost", none, "/dummy.git"⟩
        (some [("password", "token")])
      ≠ ⟨"ssh", some "git", "localhost", none, "/dummy.git"⟩ := by
  decide

/-- C9 amended: cloneRepo rewrites the clone URL exactly when credentials
were resolved, the URL scheme is ssh, the credentials hold a non-empty
password and an empty identity (the username is not consulted); the
rewritten URL has scheme https, the host reduced to the hostname (port
dropped) and no userinfo, with the path unchanged.  In every other case
the original URL is used unchanged. -/
theorem cloneURL_rewrite_rule (u : GitURL) (m : List (String × String)) :
    (u.scheme = "ssh" → credValue m "password" ≠ "" → credValue m "identity" = "" →
      cloneURL u (some m)
        = { scheme := "https", user := none, host := u.host, port := none, path := u.path })
  ∧ (u.scheme ≠ "ssh" → cloneURL u (some m) = u)
  ∧ (credValue m "password" = "" → cloneURL u (some m) = u)
  ∧ (credValue m "identity" ≠ "" → cloneURL u (some m) = u)
  ∧ cloneURL u none = u := by
  refine ⟨?_, ?_, ?_, ?_, rfl⟩
  · intro h1 h2 h3; simp [cloneURL, h1, h2, h3]
  · intro h1; simp [cloneURL, h1]
  · intro h1; simp [cloneURL, h1]
  · intro h1; simp [cloneURL, h1]

/-- Witness for cloneURL_rewrite_rule: a concrete ssh URL with a
password-only credential is rewritten to https with the port and userinfo
dropped; a non-ssh URL is unchanged. -/
theorem cloneURL_rewrite_rule_witness :
    cloneURL ⟨"ssh", some "git", "localhost", some "2222", "/r.git"⟩
        (some [("username", "u"), ("password", "p")])
      = { scheme := "https", user := none, host := "localhost",
          port := none, path := "/r.git" }
  ∧ cloneURL ⟨"https", none, "localhost", none, "/r.git"⟩ (some [("password", "p")])
      = ⟨"https", none, "localhost", none, "/r.git"⟩ := by
  constructor
  · exact (cloneURL_rewrite_rule
      ⟨"ssh", some "git", "localhost", some "2222", "/r.git"⟩
      [("username", "u"), ("password", "p")]).1 rfl (by decide) (by decide)
  · exact (cloneURL_rewrite_rule
      ⟨"https", none, "localhost", none, "/r.git"⟩ [("password", "p")]).2.1 (by decide)

/-- Helper: a lookup after filtering an association list on keys
different from the looked-up key finds nothing. -/
theorem lookup_filter_ne (l : List (String × Option String)) (x : String) :
    (l.filter fun p => p.1 ≠ x).lookup x = none := by
  induction l with
  | nil => rfl
  | cons a t ih =>
    obtain ⟨k, v⟩ := a
    rw [List.filter_cons]
    by_cases h : k = x
    · rw [if_neg (by simp [h])]
      exact ih
    · rw [if_pos (by simp [h])]
      have hx : (x == k) = false := by
        simp only [beq_eq_false_iff_ne]
        exact fun hh => h hh.symm
      simp only [List.lookup, hx]
      exact ih

/-- Helper: a concrete version spec resolves to itself without a tag
listing. -/
theorem ociResolveVersion_concrete (pv : String → Bool)
    (sel : List String → String → Option String) (tags : List String)
    (spec : String) (h : pv spec = true) :
    ociResolveVersion pv sel tags spec = (.ok spec, 0) := by
  simp [ociResolveVersion, h]

/-- Helper: a non-concrete version spec always costs one tag listing,
whatever the outcome. -/
theorem ociResolveVersion_lists_tags (pv : String → Bool)
    (sel : List String → String → Option String) (tags : List String)
    (spec : String) (h : pv spec = false) :
    (ociResolveVersion pv sel tags spec).2 = 1 := by
  by_cases htags : tags = []
  · simp [ociResolveVersion, h, htags]
  · cases hsel : sel tags spec <;> simp [ociResolveVersion, h, htags, hsel]

/-- Helper: a failed version resolution only adds the tag-listing cost to
the state and propagates the error. -/
theorem ociLoadChart_error (pv : String → Bool)
    (sel : List String → String → Option String) (tags : List String)
    (content cacheRoot repoURL chartName spec e : String) (k : Nat) (st : OciState)
    (hres : ociResolveVersion pv sel tags spec = (.error e, k)) :
    ociLoadChart pv sel tags content cacheRoot repoURL chartName spec st
      = (.error e, { st with tagsCount := st.tagsCount + k }) := by
  simp [ociLoadChart, hres]

/-- Helper: loading into a fresh state (enabled empty memory cache, empty
disk cache) downloads the chart once, stores it on disk and in the memory
cache. -/
theorem ociLoadChart_fresh (pv : String → Bool)
    (sel : List String → String → Option String) (tags : List String)
    (content cacheRoot repoURL chartName spec ver : String) (k : Nat)
    (hres : ociResolveVersion pv sel tags spec = (.ok ver, k)) :
    ociLoadChart pv sel tags content cacheRoot repoURL chartName spec
        ⟨some [], [], 0, 0⟩
      = (.ok (some content),
         ⟨some [(ociChartKey repoURL chartName ver, content)],
          [(getChartPath (ociRepoPath cacheRoot repoURL) chartName ver, some content)],
          k, 1⟩) := by
  simp [ociLoadChart, hres, ociLoadRest]

/-- Helper: loading when the memory cache already holds the resolved
chart key returns the cached chart, paying only the tag listing. -/
theorem ociLoadChart_memhit (pv : String → Bool)
    (sel : List String → String → Option String) (tags : List String)
    (content cacheRoot repoURL chartName spec ver : String) (k : Nat)
    (d : List (String × Option String)) (t g : Nat)
    (hres : ociResolveVersion pv sel tags spec = (.ok ver, k)) :
    ociLoadChart pv sel tags content cacheRoot repoURL chartName spec
        ⟨some [(ociChartKey repoURL chartName ver, content)], d, t, g⟩
      = (.ok (some content),
         ⟨some [(ociChartKey repoURL chartName ver, content)], d, t + k, g⟩) := by
  simp [ociLoadChart, hres, List.lookup]

/-- C1 counterexample: with the fixture chart cached on disk as a corrupt
directory, the OCI loader deletes the cache directory (the disk cache
becomes empty) and returns a nil chart with a nil error, contradicting
the claim that the directory is kept and the load failure surfaced as a
fatal error. -/
theorem oci_corrupt_cache_counterexample :
    (ociLoadChart pvFix selFix [] "fresh" "cache" "oci://reg/repo" "chart" "1.0.0"
        corruptState).1 = .ok none
  ∧ (ociLoadChart pvFix selFix [] "fresh" "cache" "oci://reg/repo" "chart" "1.0.0"
        corruptState).2.disk = [] := by
  exact ⟨rfl, rfl⟩

/-- C1 amended: when the derived cache directory exists on disk but
loading the chart from it fails, the OCI loader removes the cache
directory and returns a nil chart together with a nil error: the failure
is not surfaced to the caller and no re-download happens in that call. -/
theorem oci_corrupt_cache_behavior (pv : String → Bool)
    (sel : List String → String → Option String) (tags : List String)
    (content cacheRoot repoURL chartName spec ver : String) (k : Nat) (st : OciState)
    (hres : ociResolveVersion pv sel tags spec = (.ok ver, k))
    (hmem : ∀ cache, st.memCache = some cache →
      cache.lookup (ociChartKey repoURL chartName ver) = none)
    (hdisk : st.disk.lookup
        (getChartPath (ociRepoPath cacheRoot repoURL) chartName ver) = some none) :
    (ociLoadChart pv sel tags content cacheRoot repoURL chartName spec st).1 = .ok none
  ∧ (ociLoadChart pv sel tags content cacheRoot repoURL chartName spec st).2.getCount
      = st.getCount
  ∧ (ociLoadChart pv sel tags content cacheRoot repoURL chartName spec st).2.disk.lookup
      (getChartPath (ociRepoPath cacheRoot repoURL) chartName ver) = none := by
  have main : ociLoadChart pv sel tags content cacheRoot repoURL chartName spec st
      = (.ok none,
         { st with tagsCount := st.tagsCount + k,
                   disk := st.disk.filter fun p =>
                     p.1 ≠ getChartPath (ociRepoPath cacheRoot repoURL) chartName ver }) := by
    rcases hmc : st.memCache with _ | cache
    · simp [ociLoadChart, hres, ociLoadRest, hmc, hdisk]
    · have hl := hmem cache hmc
      simp [ociLoadChart, hres, ociLoadRest, hmc, hl, hdisk]
  rw [main]
  exact ⟨rfl, rfl, lookup_filter_ne _ _⟩

/-- Witness for oci_corrupt_cache_behavior, evaluated at the corrupt
fixture state. -/
theorem oci_corrupt_cache_behavior_witness :
    (ociLoadChart pvFix selFix [] "fresh" "cache" "oci://reg/repo" "chart" "1.0.0"
        corruptState).1 = .ok none
  ∧ (ociLoadChart pvFix selFix [] "fresh" "cache" "oci://reg/repo" "chart" "1.0.0"
        corruptState).2.getCount = corruptState.getCount
  ∧ (ociLoadChart pvFix selFix [] "fresh" "cache" "oci://reg/repo" "chart" "1.0.0"
        corruptState).2.disk.lookup corruptPath = none := by
  have h := oci_corrupt_cache_behavior pvFix selFix [] "fresh" "cache" "oci://reg/repo"
    "chart" "1.0.0" "1.0.0" 0 corruptState rfl
    (by intro cache hc
        simp only [corruptState] at hc
        cases hc
        rfl)
    rfl
  exact h

/-- C4: with the in-memory chart cache enabled, loading the same OCI
chart identity twice from a fresh state lists the registry tags on every
load exactly when the version spec is not already a concrete version (so
twice here, and never for a concrete spec), while the chart content is
downloaded at most once in total. -/
theorem oci_repeat_load_counts (pv : String → Bool)
    (sel : List String → String → Option String) (tags : List String)
    (content cacheRoot repoURL chartName spec : String) :
    ((ociLoadChart pv sel tags content cacheRoot repoURL chartName spec
        ((ociLoadChart pv sel tags content cacheRoot repoURL chartName spec
            ⟨some [], [], 0, 0⟩).2)).2.tagsCount = if pv spec then 0 else 2)
  ∧ ((ociLoadChart pv sel tags content cacheRoot repoURL chartName spec
        ((ociLoadChart pv sel tags content cacheRoot repoURL chartName spec
            ⟨some [], [], 0, 0⟩).2)).2.getCount ≤ 1) := by
  cases hpv : pv spec with
  | true =>
    have hres := ociResolveVersion_concrete pv sel tags spec hpv
    rw [ociLoadChart_fresh pv sel tags content cacheRoot repoURL chartName spec spec 0 hres]
    rw [ociLoadChart_memhit pv sel tags content cacheRoot repoURL chartName spec spec 0
      _ _ _ hres]
    simp
  | false =>
    by_cases htags : tags = []
    · have hres : ociResolveVersion pv sel tags spec
          = (.error "unable to locate any tags", 1) := by
        simp [ociResolveVersion, hpv, htags]
      rw [ociLoadChart_error pv sel tags content cacheRoot repoURL chartName spec _ 1 _ hres]
      rw [ociLoadChart_error pv sel tags content cacheRoot repoURL chartName spec _ 1 _ hres]
      simp
    · cases hsel : sel tags spec with
      | none =>
        have hres : ociResolveVersion pv sel tags spec
            = (.error "unable to find version matching spec", 1) := by
          simp [ociResolveVersion, hpv, htags, hsel]
        rw [ociLoadChart_error pv sel tags content cacheRoot repoURL chartName spec _ 1 _
          hres]
        rw [ociLoadChart_error pv sel tags content cacheRoot repoURL chartName spec _ 1 _
          hres]
        simp
      | some v =>
        have hres : ociResolveVersion pv sel tags spec = (.ok v, 1) := by
          simp [ociResolveVersion, hpv, htags, hsel]
        rw [ociLoadChart_fresh pv sel tags content cacheRoot repoURL chartName spec v 1 hres]
        rw [ociLoadChart_memhit pv sel tags content cacheRoot repoURL chartName spec v 1
          _ _ _ hres]
        simp

/-- Helper: removing a trailing slash keeps every colon of a string. -/
theorem colon_mem_trimSuffixSlash {s : String} (h : ':' ∈ s.data) :
    ':' ∈ (trimSuffixSlash s).data := by
  unfold trimSuffixSlash
  by_cases hl : s.data.getLast? = some '/'
  · rw [if_pos hl]
    have hne : s.data ≠ [] := by
      intro hnil
      rw [hnil] at hl
      exact Option.noConfusion hl
    have hlast : s.data.getLast hne = '/' := by
      have := List.getLast?_eq_getLast s.data hne
      rw [this] at hl
      exact Option.some.inj hl
    have hsplit := List.dropLast_append_getLast hne
    rw [← hsplit] at h
    rcases List.mem_append.mp h with h1 | h1
    · exact h1
    · rw [hlast] at h1
      simp at h1
  · rw [if_neg hl]
    exact h

/-- Helper: the cache directory name of a URL containing a colon also
contains a colon, hence is never the literal "ephemeral". -/
theorem repoURLCacheDir_ne_ephemeral {repoURL : String} (h : ':' ∈ repoURL.data) :
    repoURLCacheDir repoURL ≠ "ephemeral" := by
  have hc : ':' ∈ (repoURLCacheDir repoURL).data := by
    unfold repoURLCacheDir replaceSlashes
    exact List.mem_map.mpr ⟨':', colon_mem_trimSuffixSlash h, by simp⟩
  intro he
  rw [he] at hc
  simp at hc

/-- C3: for every Git repository resolution (the repository URL contains
a colon, as every ssh, https or oci URL does), a floating reference
(branch, or no reference given) places its checkout under the cache root
ephemeral subtree, which the top-level invocation cleanup removes, and a
pinned reference (commit, tag or semver) places it under the persistent
subtree, which the cleanup leaves intact. -/
theorem git_ref_cache_subtree (cacheRoot repoURL : String)
    (reference : Option GitRepositoryRef) (paths : List (List String))
    (hurl : ':' ∈ repoURL.data) :
    ((reference = none ∨ ∃ ref, reference = some ref ∧ ref.tag = "" ∧ ref.semver = ""
        ∧ ref.commit = "" ∧ ref.name = "") →
      [cacheRoot, "ephemeral"].isPrefixOf (gitCloneCachePath cacheRoot repoURL reference)
        = true
      ∧ gitCloneCachePath cacheRoot repoURL reference ∉ cleanupEphemeral cacheRoot paths)
  ∧ ((∃ ref, reference = some ref ∧ (ref.tag ≠ "" ∨ ref.semver ≠ "" ∨ ref.commit ≠ "")) →
      [cacheRoot, "ephemeral"].isPrefixOf (gitCloneCachePath cacheRoot repoURL reference)
        = false
      ∧ (gitCloneCachePath cacheRoot repoURL reference ∈ paths →
          gitCloneCachePath cacheRoot repoURL reference ∈ cleanupEphemeral cacheRoot paths)) := by
  constructor
  · intro hfloat
    have hpath : gitCloneCachePath cacheRoot repoURL reference
        = [cacheRoot, "ephemeral", repoURLCacheDir repoURL,
           gitRefString (normalizeGitReference reference)] := by
      rcases hfloat with rfl | ⟨ref, rfl, ht, hs, hc, hn⟩
      · rfl
      · by_cases hb : ref.branch = ""
        · have hnorm : normalizeGitReference (some ref) = masterRef := by
            simp [normalizeGitReference, hb, ht, hs, hc, hn]
          simp [gitCloneCachePath, hnorm, isFloatingGitRef, masterRef,
            getCachePathForRepo]
        · have hnorm : normalizeGitReference (some ref) = ref := by
            simp [normalizeGitReference, hb]
          simp [gitCloneCachePath, hnorm, isFloatingGitRef, ht, hs, hc,
            getCachePathForRepo]
    constructor
    · rw [hpath]
      simp [List.isPrefixOf]
    · rw [hpath]
      intro hmem
      have := (List.mem_filter.mp hmem).2
      simp [List.isPrefixOf] at this
  · intro hpin
    obtain ⟨ref, rfl, hdisj⟩ := hpin
    have hnorm : normalizeGitReference (some ref) = ref := by
      rcases hdisj with h | h | h <;> simp [normalizeGitReference, h]
    have hfloatfalse : isFloatingGitRef ref = false := by
      rcases hdisj with h | h | h <;> simp [isFloatingGitRef, h]
    have hpath : gitCloneCachePath cacheRoot repoURL (some ref)
        = [cacheRoot, repoURLCacheDir repoURL, gitRefString ref] := by
      simp [gitCloneCachePath, hnorm, hfloatfalse, getCachePathForRepo]
    have hne := repoURLCacheDir_ne_ephemeral hurl
    constructor
    · rw [hpath]
      simp [List.isPrefixOf]
      exact fun he => hne he.symm
    · intro hmem
      rw [hpath] at hmem ⊢
      refine List.mem_filter.mpr ⟨hmem, ?_⟩
      simp [List.isPrefixOf]
      exact fun he => hne he.symm

/-- Witness for git_ref_cache_subtree: an unset reference lands under the
ephemeral subtree and is removed by the cleanup; a commit reference lands
under the persistent subtree and survives the cleanup. -/
theorem git_ref_cache_subtree_witness :
    ([ "cache", "ephemeral"].isPrefixOf
        (gitCloneCachePath "cache" "ssh://git@localhost/dummy.git" none) = true
      ∧ gitCloneCachePath "cache" "ssh://git@localhost/dummy.git" none
          ∉ cleanupEphemeral "cache"
              [gitCloneCachePath "cache" "ssh://git@localhost/dummy.git" none])
  ∧ ([ "cache", "ephemeral"].isPrefixOf
        (gitCloneCachePath "cache" "ssh://git@localhost/dummy.git" (some pinnedRefFix))
          = false
      ∧ gitCloneCachePath "cache" "ssh://git@localhost/dummy.git" (some pinnedRefFix)
          ∈ cleanupEphemeral "cache"
              [gitCloneCachePath "cache" "ssh://git@localhost/dummy.git"
                 (some pinnedRefFix)]) := by
  constructor
  · exact (git_ref_cache_subtree "cache" "ssh://git@localhost/dummy.git" none
      [gitCloneCachePath "cache" "ssh://git@localhost/dummy.git" none]
      (by decide)).1 (Or.inl rfl)
  · have h := (git_ref_cache_subtree "cache" "ssh://git@localhost/dummy.git"
      (some pinnedRefFix)
      [gitCloneCachePath "cache" "ssh://git@localhost/dummy.git" (some pinnedRefFix)]
      (by decide)).2 ⟨pinnedRefFix, rfl, Or.inr (Or.inr (by decide))⟩
    exact ⟨h.1, h.2 (List.mem_singleton.mpr rfl)⟩

/-- Helper: the three possible outcomes of one comparator step. -/
theorem cmpStr_cases (a b : String) :
    (cmpStr a b = -1 ∧ a < b) ∨ (cmpStr a b = 0 ∧ a = b)
      ∨ (cmpStr a b = 1 ∧ b < a) := by
  unfold cmpStr
  rcases lt_trichotomy a b with h | h | h
  · exact Or.inl ⟨if_pos h, h⟩
  · subst h
    rw [if_neg (lt_irrefl a), if_neg (lt_irrefl a)]
    exact Or.inr (Or.inl ⟨rfl, rfl⟩)
  · refine Or.inr (Or.inr ⟨?_, h⟩)
    rw [if_neg (lt_asymm h), if_pos h]

/-- Helper: the comparator is zero on equal strings. -/
theorem cmpStr_self (a : String) : cmpStr a a = 0 := by
  simp [cmpStr]

/-- Helper: the filterStep comparator agrees with the lexicographic order
on the four compared fields. -/
theorem cmpNodes_le_iff (a b : Node) :
    cmpNodes a b ≤ 0 ↔ nodeLexKey a ≤ nodeLexKey b := by
  simp only [nodeLexKey, Prod.Lex.le_iff]
  rcases cmpStr_cases a.kind b.kind with ⟨h1, h2⟩ | ⟨h1, h2⟩ | ⟨h1, h2⟩
  · simp [cmpNodes, chainCmp, cmpStr_self, h1, h2]
  · have hnlt : ¬ a.kind < b.kind := by rw [h2]; exact lt_irrefl _
    rcases cmpStr_cases a.apiVersion b.apiVersion with ⟨g1, g2⟩ | ⟨g1, g2⟩ | ⟨g1, g2⟩
    · simp [cmpNodes, chainCmp, cmpStr_self, h1, h2, g1, g2, hnlt]
    · have gnlt : ¬ a.apiVersion < b.apiVersion := by rw [g2]; exact lt_irrefl _
      rcases cmpStr_cases a.nspace b.nspace with ⟨f1, f2⟩ | ⟨f1, f2⟩ | ⟨f1, f2⟩
      · simp [cmpNodes, chainCmp, cmpStr_self, h1, h2, g1, g2, f1, f2, hnlt, gnlt]
      · have fnlt : ¬ a.nspace < b.nspace := by rw [f2]; exact lt_irrefl _
        rcases cmpStr_cases a.name b.name with ⟨e1, e2⟩ | ⟨e1, e2⟩ | ⟨e1, e2⟩
        · simp [cmpNodes, chainCmp, cmpStr_self, h1, h2, g1, g2, f1, f2, e1, e2, hnlt, gnlt, fnlt,
            le_of_lt]
        · simp [cmpNodes, chainCmp, cmpStr_self, h1, h2, g1, g2, f1, f2, e1, e2, hnlt, gnlt, fnlt]
        · simp [cmpNodes, chainCmp, cmpStr_self, h1, h2, g1, g2, f1, f2, e1, hnlt, gnlt, fnlt,
            not_le.mpr e2]
      · simp [cmpNodes, chainCmp, cmpStr_self, h1, h2, g1, g2, f1, hnlt, gnlt, lt_asymm f2,
          ne_of_gt f2]
    · simp [cmpNodes, chainCmp, cmpStr_self, h1, h2, g1, hnlt, lt_asymm g2, ne_of_gt g2]
  · simp [cmpNodes, chainCmp, cmpStr_self, h1, lt_asymm h2, ne_of_gt h2]

/-- Helper: nodeLE restated through the lexicographic key order. -/
theorem nodeLE_iff (a b : Node) : nodeLE a b ↔ nodeLexKey a ≤ nodeLexKey b :=
  cmpNodes_le_iff a b

instance : IsTotal Node nodeLE :=
  ⟨fun a b => by
    rw [nodeLE_iff, nodeLE_iff]
    exact le_total (nodeLexKey a) (nodeLexKey b)⟩

instance : IsTrans Node nodeLE :=
  ⟨fun a b c hab hbc => by
    rw [nodeLE_iff] at hab hbc ⊢
    exact le_trans hab hbc⟩

/-- Helper: two nodes below each other in the comparator order agree on
all four compared fields. -/
theorem nodeKey_eq_of_le_ge {a b : Node} (h1 : nodeLE a b) (h2 : nodeLE b a) :
    nodeKey a = nodeKey b := by
  rw [nodeLE_iff] at h1 h2
  have hk : nodeLexKey a = nodeLexKey b := le_antisymm h1 h2
  simp only [nodeLexKey, toLex_inj, Prod.mk.injEq] at hk
  simp [nodeKey, hk.1, hk.2.1, hk.2.2.1, hk.2.2.2]

/-- Helper: two sorted lists that are permutations of each other and
whose elements have pairwise distinct comparator keys are equal: on
distinct keys the comparator order is antisymmetric, so the sorted order
is forced. -/
theorem sorted_perm_eq_of_distinct :
    ∀ {l₁ l₂ : List Node}, List.Perm l₁ l₂ → l₁.Sorted nodeLE → l₂.Sorted nodeLE →
      l₁.Pairwise (fun a b => nodeKey a ≠ nodeKey b) → l₁ = l₂ := by
  intro l₁
  induction l₁ with
  | nil =>
    intro l₂ hp _ _ _
    exact (hp.symm.eq_nil).symm
  | cons a t ih =>
    intro l₂ hp hs1 hs2 hd
    cases l₂ with
    | nil => exact absurd hp.eq_nil (by simp)
    | cons b t₂ =>
      by_cases hab : a = b
      · subst hab
        have hp' := hp.cons_inv
        rw [ih hp' hs1.of_cons hs2.of_cons hd.of_cons]
      · exfalso
        have hbmem : b ∈ a :: t := hp.mem_iff.mpr (List.mem_cons_self b t₂)
        have hamem : a ∈ b :: t₂ := hp.mem_iff.mp (List.mem_cons_self a t)
        have hbt : b ∈ t := by
          rcases List.mem_cons.mp hbmem with h | h
          · exact absurd h.symm hab
          · exact h
        have hat : a ∈ t₂ := by
          rcases List.mem_cons.mp hamem with h | h
          · exact absurd h hab
          · exact h
        have h1 : nodeLE a b := List.rel_of_sorted_cons hs1 b hbt
        have h2 : nodeLE b a := List.rel_of_sorted_cons hs2 a hat
        have hne := (List.pairwise_cons.mp hd).1 b hbt
        exact hne (nodeKey_eq_of_le_ge h1 h2)

/-- C6 counterexample: two produced nodes that agree on kind, API
version, namespace and name but differ in content keep their input order
through the stable sort, so reordering the input document set changes the
output order: the output order is not a pure function of the four
fields. -/
theorem filterStep_order_counterexample :
    (filterStepCombine [] [tieNodeA, tieNodeB]).1
      ≠ (filterStepCombine [] [tieNodeB, tieNodeA]).1 := by
  intro h
  have h1 : (filterStepCombine [] [tieNodeA, tieNodeB]).1 = [tieNodeA, tieNodeB] := by
    simp [filterStepCombine, sortNewNodes, tieNodeA, tieNodeB, nodeLE, cmpNodes,
      cmpStr, chainCmp]
  have h2 : (filterStepCombine [] [tieNodeB, tieNodeA]).1 = [tieNodeB, tieNodeA] := by
    simp [filterStepCombine, sortNewNodes, tieNodeB, tieNodeA, nodeLE, cmpNodes,
      cmpStr, chainCmp]
  rw [h1, h2] at h
  simp [tieNodeA, tieNodeB] at h

/-- C6 amended: within each round the newly produced nodes are sorted by
kind, then API version, then namespace, then name (all lexicographic) and
appended after the existing node set; the sort is stable, so whenever the
produced nodes have pairwise distinct (kind, apiVersion, namespace, name)
tuples the output order is a pure function of those fields and reordering
the input does not change it, while nodes tying on all four fields keep
their upstream relative order. -/
theorem filterStep_sorted_deterministic (allNodes l l2 : List Node) :
    List.Sorted nodeLE (sortNewNodes l)
  ∧ (filterStepCombine allNodes l).1 = allNodes ++ sortNewNodes l
  ∧ List.Perm (sortNewNodes l) l
  ∧ (List.Perm l l2 → l.Pairwise (fun a b => nodeKey a ≠ nodeKey b) →
      sortNewNodes l = sortNewNodes l2) := by
  refine ⟨List.sorted_insertionSort nodeLE l, rfl, List.perm_insertionSort nodeLE l, ?_⟩
  intro hperm hdist
  apply sorted_perm_eq_of_distinct
  · exact (List.perm_insertionSort nodeLE l).trans
      (hperm.trans (List.perm_insertionSort nodeLE l2).symm)
  · exact List.sorted_insertionSort nodeLE l
  · exact List.sorted_insertionSort nodeLE l2
  · exact ((List.perm_insertionSort nodeLE l).pairwise_iff
      (fun hr => fun he => hr he.symm)).mpr hdist

/-- Witness for filterStep_sorted_deterministic: two nodes with distinct
keys sort to the same output from either input order. -/
theorem filterStep_sorted_deterministic_witness :
    sortNewNodes [keyNodeA, keyNodeB] = sortNewNodes [keyNodeB, keyNodeA] :=
  (filterStep_sorted_deterministic [] [keyNodeA, keyNodeB] [keyNodeB, keyNodeA]).2.2.2
    (List.Perm.swap keyNodeB keyNodeA [])
    (by
      refine List.pairwise_cons.mpr ⟨?_, List.pairwise_singleton _ _⟩
      intro b hb
      rw [List.mem_singleton] at hb
      subst hb
      decide)

/-- Helper: splitting recovers a scheme free of colons that was joined
with "://". -/
theorem splitScheme_append (scheme t : List Char) (h : ':' ∉ scheme) :
    splitScheme (scheme ++ ':' :: '/' :: '/' :: t) = some (scheme, t) := by
  induction scheme with
  | nil => simp [splitScheme]
  | cons c cs ih =>
    have hc : c ≠ ':' := fun he => h (he ▸ List.mem_cons_self c cs)
    have ih2 := ih fun hm => h (List.mem_cons_of_mem c hm)
    simp [splitScheme, hc, ih2]

/-- Helper: takeWhile and dropWhile split a host free of slashes from a
path that is empty or starts with a slash. -/
theorem host_path_split (host path : List Char) (hh : '/' ∉ host)
    (hp : path = [] ∨ ∃ t, path = '/' :: t) :
    (host ++ path).takeWhile (fun c => c ≠ '/') = host
  ∧ (host ++ path).dropWhile (fun c => c ≠ '/') = path := by
  induction host with
  | nil =>
    rcases hp with rfl | ⟨t, rfl⟩
    · simp
    · simp [List.takeWhile, List.dropWhile]
  | cons c cs ih =>
    have hc : c ≠ '/' := fun he => hh (he ▸ List.mem_cons_self c cs)
    have ih2 := ih fun hm => hh (List.mem_cons_of_mem c hm)
    rw [List.cons_append]
    constructor
    · rw [List.takeWhile_cons_of_pos (by simpa using hc)]
      rw [ih2.1]
    · rw [List.dropWhile_cons_of_pos (by simpa using hc)]
      exact ih2.2

/-- Helper: serializing and re-parsing a well-formed URL is the
identity. -/
theorem parseURL_urlString (u : URLParts) (hs : u.scheme ≠ [])
    (hsl : '/' ∉ u.scheme) (hsc : ':' ∉ u.scheme) (hh : '/' ∉ u.host)
    (hp : u.path = [] ∨ ∃ t, u.path = '/' :: t) :
    parseURL (urlString u) = some u := by
  obtain ⟨scheme, host, path⟩ := u
  have hsplit := splitScheme_append scheme (host ++ path) hsc
  have hparts := host_path_split host path hh hp
  simp only [urlString] at *
  simp only [parseURL, hsplit]
  rw [if_neg (by simp [hs, hsl, hsc])]
  rw [hparts.1, hparts.2]

/-- Helper: the trimmed string never ends with a slash. -/
theorem trimRightSlashes_getLast (l : List Char) :
    (trimRightSlashes l).getLast? ≠ some '/' := by
  induction l with
  | nil => simp [trimRightSlashes]
  | cons c rest ih =>
    cases hr : trimRightSlashes rest with
    | nil =>
      by_cases hc : c = '/'
      · simp [trimRightSlashes, hr, hc]
      · simp [trimRightSlashes, hr, hc]
    | cons x xs =>
      rw [hr] at ih
      simp only [trimRightSlashes, hr]
      rw [List.getLast?_cons_cons]
      exact ih

/-- Helper: trimming removes an appended slash. -/
theorem trimRightSlashes_append_slash (l : List Char) :
    trimRightSlashes (l ++ ['/']) = trimRightSlashes l := by
  induction l with
  | nil => simp [trimRightSlashes]
  | cons c cs ih => simp [trimRightSlashes, ih]

/-- Helper: a string with no trailing slash is unchanged by trimming. -/
theorem trimRightSlashes_eq_self (l : List Char) (h : l.getLast? ≠ some '/') :
    trimRightSlashes l = l := by
  induction l with
  | nil => rfl
  | cons c rest ih =>
    cases rest with
    | nil =>
      have hc : c ≠ '/' := by
        intro he
        exact h (by simp [he])
      simp [trimRightSlashes, hc]
    | cons d ds =>
      rw [List.getLast?_cons_cons] at h
      have hih := ih h
      have hstep : trimRightSlashes (c :: d :: ds)
          = match trimRightSlashes (d :: ds) with
            | [] => if c = '/' then [] else [c]
            | r => c :: r := rfl
      rw [hstep, hih]

/-- Helper: trimming is idempotent. -/
theorem trimRightSlashes_idem (l : List Char) :
    trimRightSlashes (trimRightSlashes l) = trimRightSlashes l :=
  trimRightSlashes_eq_self _ (trimRightSlashes_getLast l)

/-- Helper: trimming a string that starts with a slash yields the empty
string or a string that starts with a slash. -/
theorem trimRightSlashes_cons_slash (t : List Char) :
    trimRightSlashes ('/' :: t) = []
      ∨ ∃ r, trimRightSlashes ('/' :: t) = '/' :: r := by
  cases hr : trimRightSlashes t with
  | nil => left; simp [trimRightSlashes, hr]
  | cons x xs => right; exact ⟨x :: xs, by simp [trimRightSlashes, hr]⟩

/-- Helper: dropWhile yields the empty list or a list whose head fails
the predicate. -/
theorem dropWhile_head_not (p : Char → Bool) (l : List Char) :
    l.dropWhile p = [] ∨ ∃ x xs, l.dropWhile p = x :: xs ∧ p x = false := by
  induction l with
  | nil => left; rfl
  | cons c cs ih =>
    by_cases hp : p c = true
    · simpa [List.dropWhile, hp] using ih
    · right
      exact ⟨c, cs, by simp [List.dropWhile, hp], by simpa using hp⟩

/-- Helper: the components a successful parse produces are well formed:
non-empty scheme free of slashes and colons, host free of slashes, path
empty or starting with a slash, and the input non-empty. -/
theorem parseURL_props {s : List Char} {u : URLParts} (h : parseURL s = some u) :
    u.scheme ≠ [] ∧ '/' ∉ u.scheme ∧ ':' ∉ u.scheme ∧ '/' ∉ u.host
  ∧ (u.path = [] ∨ ∃ t, u.path = '/' :: t) ∧ s ≠ [] := by
  have hs : s ≠ [] := by
    intro he
    rw [he] at h
    simp [parseURL, splitScheme] at h
  unfold parseURL at h
  cases hsp : splitScheme s with
  | none => rw [hsp] at h; exact absurd h (by simp)
  | some pr =>
    obtain ⟨pre, post⟩ := pr
    rw [hsp] at h
    simp only [] at h
    by_cases hc : pre = [] ∨ '/' ∈ pre ∨ ':' ∈ pre
    · rw [if_pos hc] at h
      exact absurd h (by simp)
    · rw [if_neg hc] at h
      push_neg at hc
      obtain ⟨hc1, hc2, hc3⟩ := hc
      have hu := Option.some.inj h
      subst hu
      refine ⟨hc1, hc2, hc3, ?_, ?_, hs⟩
      · intro hmem
        have := List.mem_takeWhile_imp hmem
        simp at this
      · rcases dropWhile_head_not (fun c => c ≠ '/') post with hd | ⟨x, xs, hd, hx⟩
        · left; exact hd
        · right
          refine ⟨xs, ?_⟩
          have : x = '/' := by simpa using hx
          rw [hd, this]

/-- C10: normalizeURL maps the empty string to the empty string without
an error, is defined on every parseable URL, and is idempotent on them;
the normalized path of an oci URL keeps no trailing slash, and for every
other scheme the normalized path ends with exactly one trailing slash. -/
theorem normalizeURL_spec :
    normalizeURL [] = some []
  ∧ (∀ s u, parseURL s = some u →
      ∃ t, normalizeURL s = some t ∧ normalizeURL t = some t)
  ∧ (∀ s u, parseURL s = some u → u.scheme = "oci".data →
      ∃ u2, normalizeURL s = some (urlString u2) ∧ u2.scheme = u.scheme
        ∧ u2.host = u.host ∧ u2.path = trimRightSlashes u.path
        ∧ u2.path.getLast? ≠ some '/')
  ∧ (∀ s u, parseURL s = some u → u.scheme ≠ "oci".data →
      ∃ u2, normalizeURL s = some (urlString u2) ∧ u2.scheme = u.scheme
        ∧ u2.host = u.host ∧ u2.path = trimRightSlashes u.path ++ ['/']
        ∧ (trimRightSlashes u.path).getLast? ≠ some '/') := by
  have hshape : ∀ (p : List Char), (p = [] ∨ ∃ t, p = '/' :: t) →
      trimRightSlashes p = [] ∨ ∃ t, trimRightSlashes p = '/' :: t := by
    intro p hp
    rcases hp with rfl | ⟨t, rfl⟩
    · left; rfl
    · rcases trimRightSlashes_cons_slash t with hr | ⟨r, hr⟩
      · left; exact hr
      · right; exact ⟨r, hr⟩
  have hshape2 : ∀ (p : List Char), (p = [] ∨ ∃ t, p = '/' :: t) →
      (trimRightSlashes p ++ ['/'] = [] ∨ ∃ t, trimRightSlashes p ++ ['/'] = '/' :: t) := by
    intro p hp
    rcases hshape p hp with hr | ⟨t, hr⟩
    · right; exact ⟨[], by rw [hr]; rfl⟩
    · right; exact ⟨t ++ ['/'], by rw [hr]; rfl⟩
  have hmain : ∀ s u, parseURL s = some u →
      ∃ u2, normalizeURL s = some (urlString u2) ∧ u2.scheme = u.scheme
        ∧ u2.host = u.host
        ∧ u2.path = (if u.scheme = "oci".data then trimRightSlashes u.path
            else trimRightSlashes u.path ++ ['/'])
        ∧ normalizeURL (urlString u2) = some (urlString u2) := by
    intro s u hparse
    obtain ⟨hs1, hs2, hs3, hh, hp, hsne⟩ := parseURL_props hparse
    by_cases hoci : u.scheme = "oci".data
    · refine ⟨⟨u.scheme, u.host, trimRightSlashes u.path⟩, ?_, rfl, rfl, ?_, ?_⟩
      · simp [normalizeURL, hsne, hparse, hoci]
      · simp [hoci]
      · have hrt := parseURL_urlString ⟨u.scheme, u.host, trimRightSlashes u.path⟩
          hs1 hs2 hs3 hh (hshape u.path hp)
        have hne : urlString ⟨u.scheme, u.host, trimRightSlashes u.path⟩ ≠ [] := by
          intro he
          have := congrArg List.length he
          simp [urlString] at this
        simp only [hoci] at hrt hne
        simp [normalizeURL, hne, hrt, hoci, trimRightSlashes_idem]
    · refine ⟨⟨u.scheme, u.host, trimRightSlashes u.path ++ ['/']⟩, ?_, rfl, rfl, ?_, ?_⟩
      · simp [normalizeURL, hsne, hparse, hoci]
      · simp [hoci]
      · have hrt := parseURL_urlString ⟨u.scheme, u.host, trimRightSlashes u.path ++ ['/']⟩
          hs1 hs2 hs3 hh (hshape2 u.path hp)
        have hne : urlString ⟨u.scheme, u.host, trimRightSlashes u.path ++ ['/']⟩ ≠ [] := by
          intro he
          have := congrArg List.length he
          simp [urlString] at this
        simp [normalizeURL, hne, hrt, hoci, trimRightSlashes_append_slash,
          trimRightSlashes_idem]
  refine ⟨by simp [normalizeURL], ?_, ?_, ?_⟩
  · intro s u hparse
    obtain ⟨u2, hnorm, _, _, _, hidem⟩ := hmain s u hparse
    exact ⟨urlString u2, hnorm, hidem⟩
  · intro s u hparse hoci
    obtain ⟨u2, hnorm, hsch, hhost, hpath, _⟩ := hmain s u hparse
    rw [if_pos hoci] at hpath
    exact ⟨u2, hnorm, hsch, hhost, hpath,
      hpath ▸ trimRightSlashes_getLast u.path⟩
  · intro s u hparse hoci
    obtain ⟨u2, hnorm, hsch, hhost, hpath, _⟩ := hmain s u hparse
    rw [if_neg hoci] at hpath
    exact ⟨u2, hnorm, hsch, hhost, hpath, trimRightSlashes_getLast u.path⟩

/-- Witness for normalizeURL_spec: a concrete https URL and a concrete
oci URL, each parseable, normalized and re-normalized. -/
theorem normalizeURL_spec_witness :
    (∃ t, normalizeURL "https://example.com/charts".data = some t
        ∧ normalizeURL t = some t)
  ∧ (∃ u2, normalizeURL "oci://registry.io/repo/".data = some (urlString u2)
        ∧ u2.scheme = "oci".data ∧ u2.host = "registry.io".data
        ∧ u2.path = trimRightSlashes "/repo/".data
        ∧ u2.path.getLast? ≠ some '/')
  ∧ (∃ u2, normalizeURL "https://example.com/charts".data = some (urlString u2)
        ∧ u2.scheme = "https".data ∧ u2.host = "example.com".data
        ∧ u2.path = trimRightSlashes "/charts".data ++ ['/']
        ∧ (trimRightSlashes "/charts".data).getLast? ≠ some '/') := by
  refine ⟨?_, ?_, ?_⟩
  · exact normalizeURL_spec.2.1 _
      ⟨"https".data, "example.com".data, "/charts".data⟩ (by decide)
  · exact normalizeURL_spec.2.2.1 _
      ⟨"oci".data, "registry.io".data, "/repo/".data⟩ (by decide) rfl
  · exact normalizeURL_spec.2.2.2 _
      ⟨"https".data, "example.com".data, "/charts".data⟩ (by decide) (by decide)

end Fouskoti
